import Mathlib

/-!
Verification of the comment-tree assembly and ranking subsystem of the
FastFeed backend (`src/routers/comments.py`).

The embedding models the pure core of `get_comments` and `like_comment`:

* `CommentRecord` mirrors a fetched `Comment` ORM row (with its eagerly
  loaded `user` relationship); `CommentRead` mirrors the response model,
  a rose tree via its `children` field.
* The SQL lookups (`likes_map` from the GROUP BY query, `user_likes` from
  the membership query) are passed in as an association list and an id list,
  exactly the data shapes the handler builds before the tree pass.
* The two build passes of `get_comments` collapse into `buildNode`:
  the Python code first creates one `CommentRead` per row (children empty)
  and then appends each node to `comment_map[parent_id].children`, scanning
  rows in order; hence the children list of the node for row `r` is exactly
  the row-order filter of rows whose `parent_id` equals `r.id`, and a row
  whose `parent_id` is set but matches no row id is appended nowhere.
  Recursion is fuelled: Python's object-graph recursion is depth-unbounded,
  and `records.length` fuel is proved sufficient (claim C8); `comment_map`
  keys are primary keys, so row ids are assumed (and hypothesised) distinct
  wherever that matters.
* Python `list.sort`/`sorted` are stable; `List.insertionSort` with a
  non-strict comparator is the stable sort with identical extensional
  behaviour, used for both the likes-descending and timestamp-ascending keys.
-/

open List

/-- The eagerly loaded `comment.user` relationship: only `email` is read. -/
structure UserRec where
  email : String
deriving DecidableEq

/-- One fetched `Comment` row for the post, as consumed by `get_comments`.
Timestamps are modelled as naturals (only their order matters to the code). -/
structure CommentRecord where
  id : Nat
  user_id : Nat
  post_id : Nat
  parent_id : Option Nat
  content : String
  created_at : Nat
  updated_at : Option Nat
  user : Option UserRec
deriving DecidableEq

/-- The `CommentRead` response model: a rose tree over the record fields
plus the decorations (`email`, `likes_count`, `is_liked`). -/
inductive CommentRead where
  | mk (id : Nat) (user_id : Nat) (post_id : Nat) (parent_id : Option Nat)
       (content : String) (created_at : Nat) (updated_at : Option Nat)
       (email : String) (likes_count : Nat) (is_liked : Bool)
       (children : List CommentRead)

namespace CommentRead

def id : CommentRead → Nat
  | .mk i _ _ _ _ _ _ _ _ _ _ => i

def user_id : CommentRead → Nat
  | .mk _ u _ _ _ _ _ _ _ _ _ => u

def post_id : CommentRead → Nat
  | .mk _ _ p _ _ _ _ _ _ _ _ => p

def parent_id : CommentRead → Option Nat
  | .mk _ _ _ pa _ _ _ _ _ _ _ => pa

def content : CommentRead → String
  | .mk _ _ _ _ c _ _ _ _ _ _ => c

def created_at : CommentRead → Nat
  | .mk _ _ _ _ _ cr _ _ _ _ _ => cr

def updated_at : CommentRead → Option Nat
  | .mk _ _ _ _ _ _ up _ _ _ _ => up

def email : CommentRead → String
  | .mk _ _ _ _ _ _ _ em _ _ _ => em

def likes_count : CommentRead → Nat
  | .mk _ _ _ _ _ _ _ _ lk _ _ => lk

def is_liked : CommentRead → Bool
  | .mk _ _ _ _ _ _ _ _ _ il _ => il

def children : CommentRead → List CommentRead
  | .mk _ _ _ _ _ _ _ _ _ _ ch => ch

/-- Replace the children list, keeping every other field. -/
def withChildren : CommentRead → List CommentRead → CommentRead
  | .mk i u p pa c cr up em lk il _, kids => .mk i u p pa c cr up em lk il kids

end CommentRead

/-- `likes_map.get(comment.id, 0)`: the aggregated like count with default 0. -/
def likesCount (likes_map : List (Nat × Nat)) (cid : Nat) : Nat :=
  ((likes_map.find? (fun p => p.1 = cid)).map (fun p => p.2)).getD 0

/-- First pass of `get_comments`: one `CommentRead` per row, children empty.
`email` falls back to the sentinel when the `user` relationship is missing. -/
def mkCommentRead (likes_map : List (Nat × Nat)) (user_likes : List Nat)
    (c : CommentRecord) : CommentRead :=
  .mk c.id c.user_id c.post_id c.parent_id c.content c.created_at c.updated_at
    (match c.user with
     | some u => u.email
     | none => "Unknown")
    (likesCount likes_map c.id)
    (decide (c.id ∈ user_likes))
    []

/-- The rows appended (in row order) to the children of the node for id `pid`
during the second pass. -/
def childRecords (comments : List CommentRecord) (pid : Nat) : List CommentRecord :=
  comments.filter (fun c => c.parent_id = some pid)

/-- The node for row `c` with its subtree, to recursion depth `fuel`. -/
def buildNode (likes_map : List (Nat × Nat)) (user_likes : List Nat)
    (comments : List CommentRecord) : Nat → CommentRecord → CommentRead
  | 0, c => mkCommentRead likes_map user_likes c
  | fuel + 1, c =>
    (mkCommentRead likes_map user_likes c).withChildren
      ((childRecords comments c.id).map (buildNode likes_map user_likes comments fuel))

/-- The rows put on `root_comments` by the second pass: `parent_id` unset.
(A set-but-unmatched `parent_id` lands in neither list.) -/
def rootRecords (comments : List CommentRecord) : List CommentRecord :=
  comments.filter (fun c => c.parent_id = none)

/-- Comparator of `sort(key=lambda x: x.likes_count, reverse=True)`. -/
def likesLe (a b : CommentRead) : Prop := b.likes_count ≤ a.likes_count

/-- Comparator of `sort(key=lambda x: x.created_at)`. -/
def timeLe (a b : CommentRead) : Prop := a.created_at ≤ b.created_at

instance : DecidableRel likesLe := fun a b =>
  inferInstanceAs (Decidable (b.likes_count ≤ a.likes_count))

instance : DecidableRel timeLe := fun a b =>
  inferInstanceAs (Decidable (a.created_at ≤ b.created_at))

instance : IsTotal CommentRead likesLe := ⟨fun a b => Nat.le_total b.likes_count a.likes_count⟩

instance : IsTrans CommentRead likesLe := ⟨fun _ _ _ h h2 => Nat.le_trans h2 h⟩

instance : IsTotal CommentRead timeLe := ⟨fun a b => Nat.le_total a.created_at b.created_at⟩

instance : IsTrans CommentRead timeLe := ⟨fun _ _ _ h h2 => Nat.le_trans h h2⟩

/-- One level of `sort_children`: full stable likes-descending sort when the
list has at most 3 entries, otherwise the pinned top-3-by-likes prefix
followed by the remaining entries sorted by creation time. -/
def rankList (children : List CommentRead) : List CommentRead :=
  if children.length ≤ 3 then
    children.insertionSort likesLe
  else
    let top_3 := (children.insertionSort likesLe).take 3
    let top_3_ids := top_3.map CommentRead.id
    let rest := children.filter (fun c => c.id ∉ top_3_ids)
    top_3 ++ rest.insertionSort timeLe

/-- The recursive `sort_children`: order one sibling list, then recurse into
each node's children. Python recurses along the object graph; here the
recursion is fuelled, and `get_comments` passes fuel proved sufficient (C8). -/
def sortChildrenF : Nat → List CommentRead → List CommentRead
  | 0, children => children
  | fuel + 1, children =>
    (rankList children).map (fun c => c.withChildren (sortChildrenF fuel c.children))

/-- `get_comments` after the fetches: build the forest, sort roots by likes
only, then run `sort_children` on every root's children. -/
def get_commentsF (fuel : Nat) (likes_map : List (Nat × Nat)) (user_likes : List Nat)
    (comments : List CommentRecord) : List CommentRead :=
  if comments.isEmpty then []
  else
    let root_comments :=
      (rootRecords comments).map (buildNode likes_map user_likes comments fuel)
    let roots_sorted := root_comments.insertionSort likesLe
    roots_sorted.map (fun r => r.withChildren (sortChildrenF fuel r.children))

/-- The handler with the proven-sufficient fuel: one fuel unit per row. -/
def get_comments (likes_map : List (Nat × Nat)) (user_likes : List Nat)
    (comments : List CommentRecord) : List CommentRead :=
  get_commentsF comments.length likes_map user_likes comments

mutual

/-- All ids in a tree, root first, children in list order. -/
def treeIds : CommentRead → List Nat
  | .mk i _ _ _ _ _ _ _ _ _ kids => i :: forestIds kids

/-- All ids in a forest. Its length is the recursive node count. -/
def forestIds : List CommentRead → List Nat
  | [] => []
  | t :: ts => treeIds t ++ forestIds ts

end

/-! ### The like endpoint (`like_comment`) at the state level -/

/-- The persistent state `like_comment` reads and writes: the set of existing
comment ids and the set of `(user_id, comment_id)` like rows. -/
structure LikeState where
  comments : List Nat
  likes : List (Nat × Nat)
deriving DecidableEq

/-- `like_comment` after id parsing: 404 when the comment is missing, a
no-op with "Comment already liked" when the like row exists, otherwise
insert the row and commit. -/
def like_comment (st : LikeState) (user_id comment_id : Nat) :
    Except Nat (String × LikeState) :=
  if comment_id ∈ st.comments then
    if (user_id, comment_id) ∈ st.likes then
      Except.ok ("Comment already liked", st)
    else
      Except.ok ("Comment liked successfully",
        { st with likes := st.likes ++ [(user_id, comment_id)] })
  else
    Except.error 404

/-! ### Parent chains of the input rows -/

/-- The row referenced by `c.parent_id`, when it is set and matched. -/
def anc (comments : List CommentRecord) (c : CommentRecord) : Option CommentRecord :=
  c.parent_id.bind (fun pid => comments.find? (fun p => p.id = pid))

/-- Walk `k` parent steps up from `y` (`none` once a step is unset/unmatched). -/
def upchain (comments : List CommentRecord) : Nat → CommentRecord → Option CommentRecord
  | 0, y => some y
  | k + 1, y => (upchain comments k y).bind (anc comments)

/-- The input parent relation is forest shaped: every row's parent chain ends
at a root. The depth bound is no restriction — a chain to a root passes
pairwise-distinct rows, so its length never exceeds the row count — and it
keeps the predicate decidable. -/
def ReachesRoot (comments : List CommentRecord) : Prop :=
  ∀ y ∈ comments, ∃ d ∈ List.range (comments.length + 1),
    (upchain comments d y).map CommentRecord.parent_id = some none

instance (comments : List CommentRecord) : Decidable (ReachesRoot comments) := by
  unfold ReachesRoot
  exact inferInstance

/-! ### Shape predicates on the output -/

/-- The ranking policy of §4.2 as a property of one sibling list: short lists
fully likes-descending; longer lists a likes-descending 3-prefix dominating a
creation-time-ascending tail. -/
def PolicyOrdered (l : List CommentRead) : Prop :=
  (l.length ≤ 3 → l.Pairwise likesLe) ∧
  (3 < l.length →
    (l.take 3).Pairwise likesLe ∧
    (∀ x ∈ l.drop 3, ∀ y ∈ l.take 3, x.likes_count ≤ y.likes_count) ∧
    (l.drop 3).Pairwise timeLe)

instance (l : List CommentRead) : Decidable (PolicyOrdered l) := by
  unfold PolicyOrdered
  exact inferInstance

/-- Membership of a node anywhere in a forest. -/
inductive InForest : CommentRead → List CommentRead → Prop where
  | here : ∀ {t : CommentRead} {l : List CommentRead}, t ∈ l → InForest t l
  | deeper : ∀ {t p : CommentRead} {l : List CommentRead},
      p ∈ l → InForest t p.children → InForest t l

/-- Trees of depth at most `fuel` whose sibling lists carry distinct ids:
the shape invariant of nodes built by `buildNode`. -/
inductive BuiltOK : Nat → CommentRead → Prop where
  | intro : ∀ {fuel : Nat} {t : CommentRead},
      (t.children.map CommentRead.id).Nodup →
      (∀ c ∈ t.children, BuiltOK fuel c) →
      BuiltOK (fuel + 1) t

/-- Trees of depth at most `fuel` (no id condition). -/
inductive DepthLE : Nat → CommentRead → Prop where
  | intro : ∀ {fuel : Nat} {t : CommentRead},
      (∀ c ∈ t.children, DepthLE fuel c) →
      DepthLE (fuel + 1) t

/-! ### Concrete inputs used in counterexamples and witnesses -/

/-- A childless node with given id, like count and creation time. -/
def leaf (i lk cr : Nat) : CommentRead := .mk i 0 1 none "x" cr none "e" lk false []

/-- Three siblings with like counts [5, 1, 5] (property P3 of the spec). -/
def sibs3 : List CommentRead := [leaf 1 5 1, leaf 2 1 2, leaf 3 5 3]

/-- Five siblings with like counts [10, 0, 10, 0, 3], created in id order
(property P4 of the spec). -/
def sibs5 : List CommentRead := [leaf 1 10 1, leaf 2 0 2, leaf 3 10 3, leaf 4 0 4, leaf 5 3 5]

/-- Five siblings with pairwise distinct like counts. -/
def sibs5d : List CommentRead := [leaf 1 7 1, leaf 2 5 2, leaf 3 9 3, leaf 4 1 4, leaf 5 3 5]

/-- A root plus a row whose parent id 99 matches no row. -/
def c1recs : List CommentRecord :=
  [⟨1, 10, 1, none, "a", 1, none, some ⟨"u"⟩⟩,
   ⟨2, 11, 1, some 99, "b", 2, none, some ⟨"v"⟩⟩]

/-- Five root rows created in id order. -/
def c3recs : List CommentRecord :=
  [⟨1, 10, 1, none, "a", 1, none, some ⟨"u"⟩⟩,
   ⟨2, 10, 1, none, "b", 2, none, some ⟨"u"⟩⟩,
   ⟨3, 10, 1, none, "c", 3, none, some ⟨"u"⟩⟩,
   ⟨4, 10, 1, none, "d", 4, none, some ⟨"u"⟩⟩,
   ⟨5, 10, 1, none, "e", 5, none, some ⟨"u"⟩⟩]

/-- Like counts [5, 4, 3, 1, 2] for the five roots of `c3recs`. -/
def c3likes : List (Nat × Nat) := [(1, 5), (2, 4), (3, 3), (4, 1), (5, 2)]

/-- A chain 3 → 2 → 1 plus a second root 4. -/
def c2recs : List CommentRecord :=
  [⟨1, 10, 1, none, "a", 1, none, some ⟨"u"⟩⟩,
   ⟨2, 10, 1, some 1, "b", 2, none, some ⟨"u"⟩⟩,
   ⟨3, 10, 1, some 2, "c", 3, none, some ⟨"u"⟩⟩,
   ⟨4, 10, 1, none, "d", 4, none, some ⟨"u"⟩⟩]

/-- A cyclic parent chain 1 → 2 → 1 next to a root 3. -/
def cycrecs : List CommentRecord :=
  [⟨1, 10, 1, some 2, "a", 1, none, some ⟨"u"⟩⟩,
   ⟨2, 10, 1, some 1, "b", 2, none, some ⟨"u"⟩⟩,
   ⟨3, 10, 1, none, "c", 3, none, some ⟨"u"⟩⟩]

/-- A row whose `user` relationship is missing. -/
def c6rec : CommentRecord := ⟨8, 12, 1, none, "z", 9, none, none⟩

/-- The node for row 3 of `c2recs` in the output of `get_comments`. -/
def c2tree3 : CommentRead := .mk 3 10 1 (some 2) "c" 3 none "u" 0 false []

/-- The node for row 2 of `c2recs` in the output of `get_comments`. -/
def c2tree2 : CommentRead := .mk 2 10 1 (some 1) "b" 2 none "u" 0 false [c2tree3]

/-- The node for row 1 of `c2recs` in the output of `get_comments`. -/
def c2tree1 : CommentRead := .mk 1 10 1 none "a" 1 none "u" 0 false [c2tree2]

/-- The node for row 4 of `c2recs` in the output of `get_comments`. -/
def c2tree4 : CommentRead := .mk 4 10 1 none "d" 4 none "u" 0 false []

/-! ### Sanity checks of the embedding on concrete inputs -/

example :
    forestIds (get_comments [] []
      [⟨1, 10, 1, none, "a", 1, none, some ⟨"u"⟩⟩,
       ⟨2, 11, 1, some 1, "b", 2, none, some ⟨"v"⟩⟩]) = [1, 2] := by decide

example :
    (get_comments [(2, 7)] []
      [⟨1, 10, 1, none, "a", 1, none, some ⟨"u"⟩⟩,
       ⟨2, 11, 1, none, "b", 2, none, some ⟨"v"⟩⟩]).map CommentRead.id = [2, 1] := by
  decide

/-! ### Projection lemmas -/

@[simp] theorem CommentRead.id_mk (i u p : Nat) (pa : Option Nat) (c : String) (cr : Nat)
    (up : Option Nat) (em : String) (lk : Nat) (il : Bool) (kids : List CommentRead) :
    (CommentRead.mk i u p pa c cr up em lk il kids).id = i := rfl

@[simp] theorem CommentRead.children_mk (i u p : Nat) (pa : Option Nat) (c : String) (cr : Nat)
    (up : Option Nat) (em : String) (lk : Nat) (il : Bool) (kids : List CommentRead) :
    (CommentRead.mk i u p pa c cr up em lk il kids).children = kids := rfl

@[simp] theorem CommentRead.likes_count_mk (i u p : Nat) (pa : Option Nat) (c : String) (cr : Nat)
    (up : Option Nat) (em : String) (lk : Nat) (il : Bool) (kids : List CommentRead) :
    (CommentRead.mk i u p pa c cr up em lk il kids).likes_count = lk := rfl

@[simp] theorem CommentRead.created_at_mk (i u p : Nat) (pa : Option Nat) (c : String) (cr : Nat)
    (up : Option Nat) (em : String) (lk : Nat) (il : Bool) (kids : List CommentRead) :
    (CommentRead.mk i u p pa c cr up em lk il kids).created_at = cr := rfl

@[simp] theorem CommentRead.email_mk (i u p : Nat) (pa : Option Nat) (c : String) (cr : Nat)
    (up : Option Nat) (em : String) (lk : Nat) (il : Bool) (kids : List CommentRead) :
    (CommentRead.mk i u p pa c cr up em lk il kids).email = em := rfl

@[simp] theorem CommentRead.is_liked_mk (i u p : Nat) (pa : Option Nat) (c : String) (cr : Nat)
    (up : Option Nat) (em : String) (lk : Nat) (il : Bool) (kids : List CommentRead) :
    (CommentRead.mk i u p pa c cr up em lk il kids).is_liked = il := rfl

@[simp] theorem CommentRead.id_withChildren (t : CommentRead) (kids : List CommentRead) :
    (t.withChildren kids).id = t.id := by cases t; rfl

@[simp] theorem CommentRead.children_withChildren (t : CommentRead) (kids : List CommentRead) :
    (t.withChildren kids).children = kids := by cases t; rfl

@[simp] theorem CommentRead.likes_count_withChildren (t : CommentRead) (kids : List CommentRead) :
    (t.withChildren kids).likes_count = t.likes_count := by cases t; rfl

@[simp] theorem CommentRead.created_at_withChildren (t : CommentRead) (kids : List CommentRead) :
    (t.withChildren kids).created_at = t.created_at := by cases t; rfl

@[simp] theorem CommentRead.email_withChildren (t : CommentRead) (kids : List CommentRead) :
    (t.withChildren kids).email = t.email := by cases t; rfl

@[simp] theorem CommentRead.is_liked_withChildren (t : CommentRead) (kids : List CommentRead) :
    (t.withChildren kids).is_liked = t.is_liked := by cases t; rfl

@[simp] theorem treeIds_withChildren (t : CommentRead) (kids : List CommentRead) :
    treeIds (t.withChildren kids) = t.id :: forestIds kids := by cases t; rfl

@[simp] theorem forestIds_nil : forestIds [] = [] := rfl

@[simp] theorem forestIds_cons (t : CommentRead) (ts : List CommentRead) :
    forestIds (t :: ts) = treeIds t ++ forestIds ts := rfl

theorem forestIds_append (l₁ l₂ : List CommentRead) :
    forestIds (l₁ ++ l₂) = forestIds l₁ ++ forestIds l₂ := by
  induction l₁ with
  | nil => rfl
  | cons t ts ih => simp [ih]

@[simp] theorem treeIds_eq (t : CommentRead) : treeIds t = t.id :: forestIds t.children := by
  cases t; rfl

@[simp] theorem mkCommentRead_id (lm : List (Nat × Nat)) (ul : List Nat) (c : CommentRecord) :
    (mkCommentRead lm ul c).id = c.id := rfl

@[simp] theorem mkCommentRead_children (lm : List (Nat × Nat)) (ul : List Nat)
    (c : CommentRecord) : (mkCommentRead lm ul c).children = [] := rfl

@[simp] theorem mkCommentRead_likes_count (lm : List (Nat × Nat)) (ul : List Nat)
    (c : CommentRecord) : (mkCommentRead lm ul c).likes_count = likesCount lm c.id := rfl

@[simp] theorem mkCommentRead_is_liked (lm : List (Nat × Nat)) (ul : List Nat)
    (c : CommentRecord) : (mkCommentRead lm ul c).is_liked = decide (c.id ∈ ul) := rfl

/-! ### Field lemmas for `buildNode` -/

theorem buildNode_id (lm : List (Nat × Nat)) (ul : List Nat) (comments : List CommentRecord)
    (fuel : Nat) (c : CommentRecord) : (buildNode lm ul comments fuel c).id = c.id := by
  cases fuel <;> simp [buildNode]

theorem buildNode_likes_count (lm : List (Nat × Nat)) (ul : List Nat)
    (comments : List CommentRecord) (fuel : Nat) (c : CommentRecord) :
    (buildNode lm ul comments fuel c).likes_count = likesCount lm c.id := by
  cases fuel <;> simp [buildNode]

theorem buildNode_is_liked (lm : List (Nat × Nat)) (ul : List Nat)
    (comments : List CommentRecord) (fuel : Nat) (c : CommentRecord) :
    (buildNode lm ul comments fuel c).is_liked = decide (c.id ∈ ul) := by
  cases fuel <;> simp [buildNode]

theorem buildNode_email (lm : List (Nat × Nat)) (ul : List Nat)
    (comments : List CommentRecord) (fuel : Nat) (c : CommentRecord) :
    (buildNode lm ul comments fuel c).email =
      (match c.user with
       | some u => u.email
       | none => "Unknown") := by
  cases fuel with
  | zero => rfl
  | succ n => rfl

theorem buildNode_children_succ (lm : List (Nat × Nat)) (ul : List Nat)
    (comments : List CommentRecord) (fuel : Nat) (c : CommentRecord) :
    (buildNode lm ul comments (fuel + 1) c).children =
      (childRecords comments c.id).map (buildNode lm ul comments fuel) := by
  simp [buildNode]

theorem treeIds_buildNode_zero (lm : List (Nat × Nat)) (ul : List Nat)
    (comments : List CommentRecord) (c : CommentRecord) :
    treeIds (buildNode lm ul comments 0 c) = [c.id] := by
  simp [buildNode, mkCommentRead]

theorem treeIds_buildNode_succ (lm : List (Nat × Nat)) (ul : List Nat)
    (comments : List CommentRecord) (fuel : Nat) (c : CommentRecord) :
    treeIds (buildNode lm ul comments (fuel + 1) c) =
      c.id :: forestIds ((childRecords comments c.id).map (buildNode lm ul comments fuel)) := by
  simp [buildNode]

/-! ### A stable-sort filter lemma for `insertionSort` -/

theorem filter_insertionSort_eq {α : Type} (r : α → α → Prop) [DecidableRel r]
    (p : α → Bool) (l : List α) (h : (l.filter p).Pairwise r) :
    (l.insertionSort r).filter p = l.filter p := by
  have hself : (l.filter p).filter p = l.filter p :=
    List.filter_eq_self.mpr (fun a ha => List.of_mem_filter ha)
  have hsub : (l.filter p).filter p <+ (l.insertionSort r).filter p :=
    (List.sublist_insertionSort h (List.filter_sublist l)).filter p
  rw [hself] at hsub
  have hperm : (l.insertionSort r).filter p ~ l.filter p :=
    (List.perm_insertionSort r l).filter p
  exact (hsub.eq_of_length hperm.length_eq.symm).symm

/-- C10: liking an already-liked existing comment is a state-level no-op:
`like_comment` answers "Comment already liked" and the like set is unchanged. -/
theorem c10_like_idempotent (st : LikeState) (u c : Nat)
    (hc : c ∈ st.comments) (hl : (u, c) ∈ st.likes) :
    like_comment st u c = Except.ok ("Comment already liked", st) := by
  simp [like_comment, hc, hl]

/-- Witness for C10 at a concrete state. -/
theorem c10_like_idempotent_witness :
    like_comment ⟨[5], [(3, 5)]⟩ 3 5 = Except.ok ("Comment already liked", ⟨[5], [(3, 5)]⟩) :=
  c10_like_idempotent ⟨[5], [(3, 5)]⟩ 3 5 (by decide) (by decide)

/-- C6: a missing like aggregate renders as zero likes and not-liked, and a
missing author renders as the sentinel name; the construction is total, so
neither missing lookup can fail the request. -/
theorem c6_missing_defaults (lm : List (Nat × Nat)) (ul : List Nat)
    (comments : List CommentRecord) (fuel : Nat) (c : CommentRecord) :
    (c.id ∉ lm.map Prod.fst → (buildNode lm ul comments fuel c).likes_count = 0) ∧
    (c.id ∉ ul → (buildNode lm ul comments fuel c).is_liked = false) ∧
    (c.user = none → (buildNode lm ul comments fuel c).email = "Unknown") := by
  refine ⟨fun hlm => ?_, fun hul => ?_, fun hu => ?_⟩
  · rw [buildNode_likes_count]
    have hnone : lm.find? (fun p => p.1 = c.id) = none := by
      rw [List.find?_eq_none]
      intro x hx
      simp only [decide_eq_true_eq]
      intro hid
      exact hlm (List.mem_map.mpr ⟨x, hx, hid⟩)
    simp [likesCount, hnone]
  · rw [buildNode_is_liked]
    simpa using hul
  · rw [buildNode_email, hu]

/-- Witness for C6 at a concrete record with no aggregates and no author. -/
theorem c6_missing_defaults_witness :
    (buildNode [] [] [c6rec] 1 c6rec).likes_count = 0 ∧
    (buildNode [] [] [c6rec] 1 c6rec).is_liked = false ∧
    (buildNode [] [] [c6rec] 1 c6rec).email = "Unknown" :=
  ⟨(c6_missing_defaults [] [] [c6rec] 1 c6rec).1 (by decide),
   (c6_missing_defaults [] [] [c6rec] 1 c6rec).2.1 (by decide),
   (c6_missing_defaults [] [] [c6rec] 1 c6rec).2.2 (by decide)⟩

/-! ### Characterisations of one ranking step -/

theorem rankList_eq_of_le3 (l : List CommentRead) (h : l.length ≤ 3) :
    rankList l = l.insertionSort likesLe := by
  simp [rankList, h]

theorem rankList_eq_of_gt3 (l : List CommentRead) (h : 3 < l.length) :
    rankList l =
      (l.insertionSort likesLe).take 3 ++
        (l.filter (fun c =>
          c.id ∉ ((l.insertionSort likesLe).take 3).map CommentRead.id)).insertionSort
          timeLe := by
  rw [rankList, if_neg (by omega)]

theorem take3_length (l : List CommentRead) (h : 3 < l.length) :
    ((l.insertionSort likesLe).take 3).length = 3 :=
  List.length_take_of_le (by rw [List.length_insertionSort]; omega)

theorem equal_likes_pairwise (l : List CommentRead) (v : Nat) :
    (l.filter (fun c => c.likes_count = v)).Pairwise likesLe := by
  apply List.pairwise_of_forall_mem_list
  intro a ha b hb
  have h1 := List.of_mem_filter ha
  have h2 := List.of_mem_filter hb
  simp only [decide_eq_true_eq] at h1 h2
  show b.likes_count ≤ a.likes_count
  omega

/-- C5: a sibling list of length at most 3 is sorted wholly by like count
descending, and nodes with equal like counts keep their input order (the sort
is stable), so the result is deterministic; on like counts [5, 1, 5] the two
5-count nodes precede the 1-count node, in input order (see the witness). -/
theorem c5_small_sort (l : List CommentRead) (hlen : l.length ≤ 3) :
    rankList l ~ l ∧ (rankList l).Pairwise likesLe ∧
    ∀ v : Nat, (rankList l).filter (fun c => c.likes_count = v) =
      l.filter (fun c => c.likes_count = v) := by
  rw [rankList_eq_of_le3 l hlen]
  exact ⟨List.perm_insertionSort likesLe l, List.sorted_insertionSort likesLe l,
    fun v => filter_insertionSort_eq likesLe _ l (equal_likes_pairwise l v)⟩

/-- Witness for C5 on the [5, 1, 5] sibling list of the spec. -/
theorem c5_small_sort_witness :
    sibs3.length ≤ 3 ∧ (rankList sibs3).map CommentRead.id = [1, 3, 2] ∧
    (rankList sibs3 ~ sibs3 ∧ (rankList sibs3).Pairwise likesLe ∧
      ∀ v : Nat, (rankList sibs3).filter (fun c => c.likes_count = v) =
        sibs3.filter (fun c => c.likes_count = v)) :=
  ⟨by decide, by decide, c5_small_sort sibs3 (by decide)⟩

theorem rest_mem_iff (l : List CommentRead) (hids : (l.map CommentRead.id).Nodup)
    (x : CommentRead) :
    x ∈ l.filter (fun c =>
        c.id ∉ ((l.insertionSort likesLe).take 3).map CommentRead.id) ↔
      x ∈ (l.insertionSort likesLe).drop 3 := by
  have hs : l.insertionSort likesLe ~ l := List.perm_insertionSort likesLe l
  have hsplit : (l.insertionSort likesLe).take 3 ++ (l.insertionSort likesLe).drop 3 =
      l.insertionSort likesLe := List.take_append_drop 3 _
  have hnd : (l.insertionSort likesLe).Nodup := hs.nodup_iff.mpr (hids.of_map _)
  constructor
  · intro hx
    obtain ⟨hxl, hpred⟩ := List.mem_filter.mp hx
    simp only [decide_eq_true_eq] at hpred
    have hxs : x ∈ l.insertionSort likesLe := hs.mem_iff.mpr hxl
    rw [← hsplit] at hxs
    rcases List.mem_append.mp hxs with htk | hdp
    · exact absurd (List.mem_map_of_mem CommentRead.id htk) hpred
    · exact hdp
  · intro hdp
    have hxs : x ∈ l.insertionSort likesLe := (List.drop_sublist 3 _).mem hdp
    have hxl : x ∈ l := hs.mem_iff.mp hxs
    refine List.mem_filter.mpr ⟨hxl, ?_⟩
    simp only [decide_eq_true_eq]
    intro hmem
    obtain ⟨y, hy, hyid⟩ := List.mem_map.mp hmem
    have hys : y ∈ l.insertionSort likesLe := (List.take_sublist 3 _).mem hy
    have hyl : y ∈ l := hs.mem_iff.mp hys
    have hxy : y = x := List.inj_on_of_nodup_map hids hyl hxl hyid
    subst hxy
    have hdisj : Disjoint ((l.insertionSort likesLe).take 3)
        ((l.insertionSort likesLe).drop 3) :=
      List.disjoint_of_nodup_append (by rw [hsplit]; exact hnd)
    exact hdisj hy hdp

theorem rankList_perm (l : List CommentRead) (hids : (l.map CommentRead.id).Nodup) :
    rankList l ~ l := by
  by_cases hlen : l.length ≤ 3
  · rw [rankList_eq_of_le3 l hlen]
    exact List.perm_insertionSort likesLe l
  · push_neg at hlen
    rw [rankList_eq_of_gt3 l hlen]
    have hs : l.insertionSort likesLe ~ l := List.perm_insertionSort likesLe l
    have hnd : (l.insertionSort likesLe).Nodup := hs.nodup_iff.mpr (hids.of_map _)
    have hrest : (l.filter (fun c =>
        c.id ∉ ((l.insertionSort likesLe).take 3).map CommentRead.id)) ~
        (l.insertionSort likesLe).drop 3 := by
      refine (List.perm_ext_iff_of_nodup ?_ ?_).mpr (rest_mem_iff l hids)
      · exact (hids.of_map _).sublist (List.filter_sublist l)
      · exact hnd.sublist (List.drop_sublist 3 _)
    calc (l.insertionSort likesLe).take 3 ++
          (l.filter (fun c =>
            c.id ∉ ((l.insertionSort likesLe).take 3).map CommentRead.id)).insertionSort
            timeLe
        ~ (l.insertionSort likesLe).take 3 ++
            l.filter (fun c =>
              c.id ∉ ((l.insertionSort likesLe).take 3).map CommentRead.id) :=
          (List.perm_insertionSort timeLe _).append_left _
      _ ~ (l.insertionSort likesLe).take 3 ++ (l.insertionSort likesLe).drop 3 :=
          hrest.append_left _
      _ = l.insertionSort likesLe := List.take_append_drop 3 _
      _ ~ l := hs

/-- C4: on a sibling list longer than 3 the ranking returns a permutation
whose first three entries are the three highest-liked nodes in
likes-descending order (ties keeping input order, the sort being stable),
followed by every remaining node in creation-time-ascending order; on like
counts [10, 0, 10, 0, 3] with creation times t1 < ... < t5 this yields the
two 10-count nodes, the 3-count node, then the t2 and t4 nodes
(see the witness). -/
theorem c4_pinned_tail (l : List CommentRead) (hlen : 3 < l.length)
    (hids : (l.map CommentRead.id).Nodup) :
    rankList l ~ l ∧
    ((rankList l).take 3).Pairwise likesLe ∧
    (∀ x ∈ (rankList l).drop 3, ∀ y ∈ (rankList l).take 3,
      x.likes_count ≤ y.likes_count) ∧
    ((rankList l).drop 3).Pairwise timeLe ∧
    (∀ v : Nat, ((rankList l).take 3).filter (fun c => c.likes_count = v) <+
      l.filter (fun c => c.likes_count = v)) := by
  have hlen3 := take3_length l hlen
  have htk : (rankList l).take 3 = (l.insertionSort likesLe).take 3 := by
    rw [rankList_eq_of_gt3 l hlen]
    exact List.take_left' hlen3
  have hdp : (rankList l).drop 3 =
      (l.filter (fun c =>
        c.id ∉ ((l.insertionSort likesLe).take 3).map CommentRead.id)).insertionSort
        timeLe := by
    rw [rankList_eq_of_gt3 l hlen]
    exact List.drop_left' hlen3
  have hsplit : (l.insertionSort likesLe).take 3 ++ (l.insertionSort likesLe).drop 3 =
      l.insertionSort likesLe := List.take_append_drop 3 _
  have hsorted : (l.insertionSort likesLe).Pairwise likesLe :=
    List.sorted_insertionSort likesLe l
  refine ⟨rankList_perm l hids, ?_, ?_, ?_, ?_⟩
  · rw [htk]
    exact hsorted.sublist (List.take_sublist 3 _)
  · intro x hx y hy
    rw [hdp] at hx
    rw [htk] at hy
    have hxd : x ∈ (l.insertionSort likesLe).drop 3 := by
      rw [List.mem_insertionSort] at hx
      exact (rest_mem_iff l hids x).mp hx
    rw [← hsplit] at hsorted
    obtain ⟨-, -, hcross⟩ := List.pairwise_append.mp hsorted
    exact hcross y hy x hxd
  · rw [hdp]
    exact List.sorted_insertionSort timeLe _
  · intro v
    rw [htk]
    have h1 : ((l.insertionSort likesLe).take 3).filter (fun c => c.likes_count = v) <+
        (l.insertionSort likesLe).filter (fun c => c.likes_count = v) :=
      (List.take_sublist 3 _).filter _
    rwa [filter_insertionSort_eq likesLe _ l (equal_likes_pairwise l v)] at h1

/-- Witness for C4 on the [10, 0, 10, 0, 3] sibling list of the spec. -/
theorem c4_pinned_tail_witness :
    3 < sibs5.length ∧ (sibs5.map CommentRead.id).Nodup ∧
    (rankList sibs5).map CommentRead.id = [1, 3, 5, 2, 4] ∧
    (rankList sibs5 ~ sibs5 ∧
      ((rankList sibs5).take 3).Pairwise likesLe ∧
      (∀ x ∈ (rankList sibs5).drop 3, ∀ y ∈ (rankList sibs5).take 3,
        x.likes_count ≤ y.likes_count) ∧
      ((rankList sibs5).drop 3).Pairwise timeLe ∧
      (∀ v : Nat, ((rankList sibs5).take 3).filter (fun c => c.likes_count = v) <+
        sibs5.filter (fun c => c.likes_count = v))) :=
  ⟨by decide, by decide, by decide, c4_pinned_tail sibs5 (by decide) (by decide)⟩

/-- Two likes-sorted permutations of a list with pairwise distinct like
counts coincide. -/
theorem sorted_perm_eq : ∀ {l₁ l₂ : List CommentRead}, l₁ ~ l₂ →
    l₁.Pairwise likesLe → l₂.Pairwise likesLe →
    (l₁.map CommentRead.likes_count).Nodup → l₁ = l₂ := by
  intro l₁
  induction l₁ with
  | nil =>
    intro l₂ hp _ _ _
    exact (hp.symm.eq_nil).symm
  | cons a t₁ ih =>
    intro l₂ hp h₁ h₂ hnd
    cases l₂ with
    | nil => exact absurd hp.length_eq (by simp)
    | cons b t₂ =>
      have hab : a = b := by
        have hal₂ : a ∈ b :: t₂ := hp.mem_iff.mp (List.mem_cons_self a t₁)
        rcases List.mem_cons.mp hal₂ with h | hat₂
        · exact h
        · have hba : likesLe b a := (List.pairwise_cons.mp h₂).1 a hat₂
          have hbl₁ : b ∈ a :: t₁ := hp.mem_iff.mpr (List.mem_cons_self b t₂)
          rcases List.mem_cons.mp hbl₁ with h | hbt₁
          · exact h.symm
          · have hab2 : likesLe a b := (List.pairwise_cons.mp h₁).1 b hbt₁
            have heq : b.likes_count = a.likes_count := Nat.le_antisymm hab2 hba
            have : a.likes_count ∈ t₁.map CommentRead.likes_count :=
              heq ▸ List.mem_map_of_mem CommentRead.likes_count hbt₁
            exact absurd this (List.nodup_cons.mp hnd).1
      subst hab
      have htail : t₁ = t₂ :=
        ih hp.cons_inv h₁.of_cons h₂.of_cons (List.nodup_cons.mp hnd).2
      rw [htail]

/-- C7: the ranking is idempotent on tie-free sibling lists — with pairwise
distinct like counts, ranking an already-ranked list returns it unchanged. -/
theorem c7_rank_idempotent (l : List CommentRead)
    (hlikes : (l.map CommentRead.likes_count).Nodup)
    (hids : (l.map CommentRead.id).Nodup) :
    rankList (rankList l) = rankList l := by
  by_cases hlen : l.length ≤ 3
  · rw [rankList_eq_of_le3 l hlen,
      rankList_eq_of_le3 _ (by rw [List.length_insertionSort]; exact hlen)]
    exact List.Sorted.insertionSort_eq (List.sorted_insertionSort likesLe l)
  · push_neg at hlen
    have hperm : rankList l ~ l := rankList_perm l hids
    have hlen2 : 3 < (rankList l).length := by rw [hperm.length_eq]; exact hlen
    rw [rankList_eq_of_gt3 _ hlen2]
    have hs : (rankList l).insertionSort likesLe = l.insertionSort likesLe := by
      apply sorted_perm_eq
      · exact (List.perm_insertionSort likesLe _).trans
          (hperm.trans (List.perm_insertionSort likesLe l).symm)
      · exact List.sorted_insertionSort likesLe _
      · exact List.sorted_insertionSort likesLe l
      · exact (((List.perm_insertionSort likesLe _).trans hperm).map
          CommentRead.likes_count).nodup_iff.mpr hlikes
    rw [hs]
    have hout : rankList l =
        (l.insertionSort likesLe).take 3 ++
          (l.filter (fun c =>
            c.id ∉ ((l.insertionSort likesLe).take 3).map CommentRead.id)).insertionSort
            timeLe := rankList_eq_of_gt3 l hlen
    rw [hout, List.filter_append]
    have hfil1 : ((l.insertionSort likesLe).take 3).filter (fun c =>
        c.id ∉ ((l.insertionSort likesLe).take 3).map CommentRead.id) = [] := by
      rw [List.filter_eq_nil_iff]
      intro c hc
      simp only [decide_eq_true_eq, Decidable.not_not]
      exact List.mem_map_of_mem CommentRead.id hc
    have hfil2 : ((l.filter (fun c =>
        c.id ∉ ((l.insertionSort likesLe).take 3).map CommentRead.id)).insertionSort
          timeLe).filter (fun c =>
        c.id ∉ ((l.insertionSort likesLe).take 3).map CommentRead.id) =
        (l.filter (fun c =>
          c.id ∉ ((l.insertionSort likesLe).take 3).map CommentRead.id)).insertionSort
          timeLe := by
      rw [List.filter_eq_self]
      intro c hc
      rw [List.mem_insertionSort] at hc
      exact List.mem_filter.mp hc |>.2
    rw [hfil1, hfil2, List.nil_append,
      List.Sorted.insertionSort_eq (List.sorted_insertionSort timeLe _)]

/-- Witness for C7 on five siblings with distinct like counts. -/
theorem c7_rank_idempotent_witness :
    (sibs5d.map CommentRead.likes_count).Nodup ∧ (sibs5d.map CommentRead.id).Nodup ∧
    (rankList sibs5d).map CommentRead.id = [3, 1, 2, 4, 5] ∧
    rankList (rankList sibs5d) = rankList sibs5d :=
  ⟨by decide, by decide, by decide, c7_rank_idempotent sibs5d (by decide) (by decide)⟩

/-! ### The ranking policy holds of every ranked sibling list -/

theorem mem_rankList {t : CommentRead} {l : List CommentRead} (h : t ∈ rankList l) :
    t ∈ l := by
  by_cases hlen : l.length ≤ 3
  · rw [rankList_eq_of_le3 l hlen] at h
    exact (List.mem_insertionSort likesLe).mp h
  · push_neg at hlen
    rw [rankList_eq_of_gt3 l hlen] at h
    rcases List.mem_append.mp h with htk | hrs
    · exact (List.perm_insertionSort likesLe l).mem_iff.mp ((List.take_sublist 3 _).mem htk)
    · rw [List.mem_insertionSort] at hrs
      exact (List.filter_sublist l).mem hrs

theorem rankList_policyOrdered (l : List CommentRead) : PolicyOrdered (rankList l) := by
  by_cases hlen : l.length ≤ 3
  · rw [rankList_eq_of_le3 l hlen]
    constructor
    · intro _
      exact List.sorted_insertionSort likesLe l
    · intro hgt
      rw [List.length_insertionSort] at hgt
      omega
  · push_neg at hlen
    rw [rankList_eq_of_gt3 l hlen]
    have hlen3 := take3_length l hlen
    constructor
    · intro hle
      rw [List.length_append, hlen3] at hle
      have hrs : (l.filter (fun c =>
          c.id ∉ ((l.insertionSort likesLe).take 3).map CommentRead.id)).insertionSort
            timeLe = [] :=
        List.eq_nil_of_length_eq_zero (by omega)
      rw [hrs, List.append_nil]
      exact (List.sorted_insertionSort likesLe l).sublist (List.take_sublist 3 _)
    · intro _
      rw [List.take_left' hlen3, List.drop_left' hlen3]
      refine ⟨(List.sorted_insertionSort likesLe l).sublist (List.take_sublist 3 _),
        ?_, List.sorted_insertionSort timeLe _⟩
      intro x hx y hy
      rw [List.mem_insertionSort] at hx
      obtain ⟨hxl, hpred⟩ := List.mem_filter.mp hx
      simp only [decide_eq_true_eq] at hpred
      have hxs : x ∈ l.insertionSort likesLe :=
        (List.perm_insertionSort likesLe l).mem_iff.mpr hxl
      rw [← List.take_append_drop 3 (l.insertionSort likesLe)] at hxs
      rcases List.mem_append.mp hxs with htk | hdp
      · exact absurd (List.mem_map_of_mem CommentRead.id htk) hpred
      · have hsorted := List.sorted_insertionSort likesLe l
        rw [← List.take_append_drop 3 (l.insertionSort likesLe)] at hsorted
        obtain ⟨-, -, hcross⟩ := List.pairwise_append.mp hsorted
        exact hcross y hy x hdp

/-- Replacing children lists does not disturb the policy (it only reads
`likes_count` and `created_at`). -/
theorem policyOrdered_map (f : CommentRead → List CommentRead) (l : List CommentRead)
    (h : PolicyOrdered l) :
    PolicyOrdered (l.map (fun c => c.withChildren (f c))) := by
  obtain ⟨h1, h2⟩ := h
  constructor
  · intro hle
    rw [List.length_map] at hle
    rw [List.pairwise_map]
    exact (h1 hle).imp (fun hab => by simpa [likesLe] using hab)
  · intro hgt
    rw [List.length_map] at hgt
    obtain ⟨ha, hb, hc⟩ := h2 hgt
    refine ⟨?_, ?_, ?_⟩
    · rw [← List.map_take, List.pairwise_map]
      exact ha.imp (fun hab => by simpa [likesLe] using hab)
    · intro x hx y hy
      rw [← List.map_drop] at hx
      rw [← List.map_take] at hy
      obtain ⟨a, hal, rfl⟩ := List.mem_map.mp hx
      obtain ⟨b, hbl, rfl⟩ := List.mem_map.mp hy
      simpa using hb a hal b hbl
    · rw [← List.map_drop, List.pairwise_map]
      exact hc.imp (fun hab => by simpa [timeLe] using hab)

theorem policyOrdered_nil : PolicyOrdered [] := by
  constructor
  · intro _
    exact List.Pairwise.nil
  · intro h
    simp at h

/-- The list produced by one `sortChildrenF` call on children of bounded
depth satisfies the ranking policy. -/
theorem policy_sortChildrenF (fuel : Nat) (kids : List CommentRead)
    (hk : ∀ c ∈ kids, DepthLE fuel c) : PolicyOrdered (sortChildrenF fuel kids) := by
  cases fuel with
  | zero =>
    cases kids with
    | nil => exact policyOrdered_nil
    | cons a t =>
      have := hk a (List.mem_cons_self a t)
      cases this
  | succ m =>
    exact policyOrdered_map _ _ (rankList_policyOrdered kids)

/-- Every node inside a `sortChildrenF` result has policy-ordered children. -/
theorem policy_in_sortChildrenF : ∀ (fuel : Nat) (l : List CommentRead),
    (∀ t ∈ l, DepthLE fuel t) → ∀ s, InForest s (sortChildrenF fuel l) →
    PolicyOrdered s.children := by
  intro fuel
  induction fuel with
  | zero =>
    intro l hl s hs
    cases l with
    | nil => cases hs with
      | here h => cases h
      | deeper hp _ => cases hp
    | cons a t =>
      have := hl a (List.mem_cons_self a t)
      cases this
  | succ m ih =>
    intro l hl s hs
    cases hs with
    | here h =>
      obtain ⟨t, ht, rfl⟩ := List.mem_map.mp h
      have hbt := hl t (mem_rankList ht)
      cases hbt with
      | intro hkids =>
        rw [CommentRead.children_withChildren]
        exact policy_sortChildrenF m _ hkids
    | deeper hp hin =>
      obtain ⟨t, ht, rfl⟩ := List.mem_map.mp hp
      have hbt := hl t (mem_rankList ht)
      cases hbt with
      | intro hkids =>
        rw [CommentRead.children_withChildren] at hin
        exact ih t.children hkids s hin

/-- `buildNode` only builds trees of depth bounded by its fuel. -/
theorem buildNode_DepthLE (lm : List (Nat × Nat)) (ul : List Nat)
    (comments : List CommentRecord) :
    ∀ (fuel : Nat) (c : CommentRecord), DepthLE (fuel + 1) (buildNode lm ul comments fuel c) := by
  intro fuel
  induction fuel with
  | zero =>
    intro c
    refine DepthLE.intro ?_
    intro t ht
    simp [buildNode] at ht
  | succ m ih =>
    intro c
    refine DepthLE.intro ?_
    intro t ht
    rw [buildNode_children_succ] at ht
    obtain ⟨d, _, rfl⟩ := List.mem_map.mp ht
    exact ih d

theorem get_commentsF_eq (fuel : Nat) (lm : List (Nat × Nat)) (ul : List Nat)
    (comments : List CommentRecord) (h : comments ≠ []) :
    get_commentsF fuel lm ul comments =
      (((rootRecords comments).map (buildNode lm ul comments fuel)).insertionSort
        likesLe).map (fun r => r.withChildren (sortChildrenF fuel r.children)) := by
  unfold get_commentsF
  rw [if_neg (by simpa using h)]

theorem get_commentsF_nil (fuel : Nat) (lm : List (Nat × Nat)) (ul : List Nat) :
    get_commentsF fuel lm ul [] = [] := rfl

/-- C3 (counterexample): with five roots of like counts [5, 4, 3, 1, 2]
created at t1 < ... < t5, `get_comments` returns the roots fully
likes-descending — ids [1, 2, 3, 5, 4] — which violates the pinned-prefix/
chronological-tail policy the claim asserts for the root list (the tail
[id 5, id 4] is not creation-time-ascending). -/
theorem c3_counterexample :
    (get_comments c3likes [] c3recs).map CommentRead.id = [1, 2, 3, 5, 4] ∧
    ¬ PolicyOrdered (get_comments c3likes [] c3recs) := by
  constructor
  · decide
  · decide

/-- C3 (amended): the ranking policy is applied at every children list of the
output recursively, but the root list itself is only sorted by like count
descending (no top-3/chronological split at the root). -/
theorem c3_policy_below_root (lm : List (Nat × Nat)) (ul : List Nat)
    (comments : List CommentRecord) :
    (get_comments lm ul comments).Pairwise likesLe ∧
    ∀ s, InForest s (get_comments lm ul comments) → PolicyOrdered s.children := by
  rcases List.eq_nil_or_concat comments with hnil | hne
  · subst hnil
    rw [get_comments, get_commentsF_nil]
    refine ⟨List.Pairwise.nil, fun s hs => ?_⟩
    cases hs with
    | here h => cases h
    | deeper hp _ => cases hp
  · have hne2 : comments ≠ [] := by
      obtain ⟨l, a, rfl⟩ := hne
      simp
    rw [get_comments, get_commentsF_eq _ _ _ _ hne2]
    constructor
    · rw [List.pairwise_map]
      exact (List.sorted_insertionSort likesLe _).imp
        (fun hab => by simpa [likesLe] using hab)
    · intro s hs
      cases hs with
      | here h =>
        obtain ⟨r, hr, rfl⟩ := List.mem_map.mp h
        rw [List.mem_insertionSort] at hr
        obtain ⟨rec, hrec, rfl⟩ := List.mem_map.mp hr
        rw [CommentRead.children_withChildren]
        apply policy_sortChildrenF
        have hd := buildNode_DepthLE lm ul comments comments.length rec
        cases hd with
        | intro hkids => exact hkids
      | deeper hp hin =>
        obtain ⟨r, hr, rfl⟩ := List.mem_map.mp hp
        rw [List.mem_insertionSort] at hr
        obtain ⟨rec, hrec, rfl⟩ := List.mem_map.mp hr
        rw [CommentRead.children_withChildren] at hin
        have hd := buildNode_DepthLE lm ul comments comments.length rec
        cases hd with
        | intro hkids => exact policy_in_sortChildrenF comments.length _ hkids s hin

/-- Witness for the amended C3 on a three-level input, at its first root. -/
theorem c3_policy_below_root_witness :
    (get_comments [] [] c2recs).Pairwise likesLe ∧ PolicyOrdered c2tree1.children :=
  ⟨(c3_policy_below_root [] [] c2recs).1,
   (c3_policy_below_root [] [] c2recs).2 c2tree1
     (InForest.here (by
       rw [show get_comments [] [] c2recs = [c2tree1, c2tree4] from rfl]
       exact List.mem_cons_self c2tree1 [c2tree4]))⟩

/-! ### Membership transport through sorting -/

theorem mem_forestIds {v : Nat} {l : List CommentRead} :
    v ∈ forestIds l ↔ ∃ t ∈ l, v ∈ treeIds t := by
  induction l with
  | nil => simp
  | cons a t ih =>
    rw [forestIds_cons, List.mem_append, ih]
    constructor
    · rintro (h | ⟨u, hu, hv⟩)
      · exact ⟨a, List.mem_cons_self a t, h⟩
      · exact ⟨u, List.mem_cons_of_mem a hu, hv⟩
    · rintro ⟨u, hu, hv⟩
      rcases List.mem_cons.mp hu with rfl | hut
      · exact Or.inl hv
      · exact Or.inr ⟨u, hut, hv⟩

theorem forestIds_sortChildrenF_subset :
    ∀ (fuel : Nat) (l : List CommentRead) (v : Nat),
    v ∈ forestIds (sortChildrenF fuel l) → v ∈ forestIds l := by
  intro fuel
  induction fuel with
  | zero => intro l v h; exact h
  | succ m ih =>
    intro l v h
    rw [sortChildrenF] at h
    obtain ⟨t, ht, hv⟩ := mem_forestIds.mp h
    obtain ⟨u, hu, rfl⟩ := List.mem_map.mp ht
    rw [treeIds_eq, CommentRead.id_withChildren, CommentRead.children_withChildren] at hv
    have hul : u ∈ l := mem_rankList hu
    rcases List.mem_cons.mp hv with rfl | hdeep
    · exact mem_forestIds.mpr ⟨u, hul, by rw [treeIds_eq]; exact List.mem_cons_self _ _⟩
    · have := ih u.children v hdeep
      exact mem_forestIds.mpr ⟨u, hul, by rw [treeIds_eq]; exact List.mem_cons_of_mem _ this⟩

/-- Every id in a built subtree is the builder row's id or the id of a row
whose parent id matches some row. -/
theorem treeIds_buildNode_cases (lm : List (Nat × Nat)) (ul : List Nat)
    (comments : List CommentRecord) :
    ∀ (fuel : Nat) (r : CommentRecord), r ∈ comments →
    ∀ v ∈ treeIds (buildNode lm ul comments fuel r),
    v = r.id ∨ ∃ z ∈ comments, z.id = v ∧ ∃ w ∈ comments, z.parent_id = some w.id := by
  intro fuel
  induction fuel with
  | zero =>
    intro r _ v hv
    rw [treeIds_buildNode_zero] at hv
    exact Or.inl (List.mem_singleton.mp hv)
  | succ m ih =>
    intro r hr v hv
    rw [treeIds_buildNode_succ] at hv
    rcases List.mem_cons.mp hv with rfl | hdeep
    · exact Or.inl rfl
    · obtain ⟨t, ht, hvt⟩ := mem_forestIds.mp hdeep
      obtain ⟨c, hc, rfl⟩ := List.mem_map.mp ht
      have hcm : c ∈ comments ∧ c.parent_id = some r.id := by
        have := List.mem_filter.mp hc
        simpa using this
      rcases ih c hcm.1 v hvt with hveq | hrest
      · exact Or.inr ⟨c, hcm.1, hveq.symm, r, hr, hcm.2⟩
      · exact Or.inr hrest

/-- C1 (counterexample): on a root row (id 1) next to a row (id 2) whose
parent id 99 matches nothing, `get_comments` returns a forest containing
only id 1 — the dangling row is dropped, not placed at the root level. -/
theorem c1_counterexample :
    (get_comments [] [] c1recs).map CommentRead.id = [1] ∧
    2 ∉ forestIds (get_comments [] [] c1recs) := by
  constructor
  · decide
  · decide

/-- C1 (amended): a row whose parent id is set but matches no row id is
silently dropped — its id appears nowhere in the output forest — while rows
with no parent id do appear at the root level; no error is raised either way
(the construction is total). -/
theorem c1_dangling_dropped (lm : List (Nat × Nat)) (ul : List Nat)
    (comments : List CommentRecord) (hN : (comments.map CommentRecord.id).Nodup)
    (y : CommentRecord) (hy : y ∈ comments) (pid : Nat) (hp : y.parent_id = some pid)
    (hd : pid ∉ comments.map CommentRecord.id) :
    y.id ∉ forestIds (get_comments lm ul comments) ∧
    ∀ z ∈ comments, z.parent_id = none →
      z.id ∈ (get_comments lm ul comments).map CommentRead.id := by
  have hne : comments ≠ [] := fun h => by subst h; cases hy
  rw [get_comments, get_commentsF_eq _ _ _ _ hne]
  constructor
  · intro hmem
    obtain ⟨t, ht, hvt⟩ := mem_forestIds.mp hmem
    obtain ⟨r, hr, rfl⟩ := List.mem_map.mp ht
    rw [treeIds_eq, CommentRead.id_withChildren, CommentRead.children_withChildren] at hvt
    have hvt2 : y.id ∈ treeIds r := by
      rcases List.mem_cons.mp hvt with heq | hdeep
      · rw [treeIds_eq]
        exact heq ▸ List.mem_cons_self _ _
      · rw [treeIds_eq]
        exact List.mem_cons_of_mem _ (forestIds_sortChildrenF_subset _ _ _ hdeep)
    rw [List.mem_insertionSort] at hr
    obtain ⟨rec, hrec, rfl⟩ := List.mem_map.mp hr
    have hrecm : rec ∈ comments ∧ rec.parent_id = none := by
      have := List.mem_filter.mp hrec
      simpa using this
    rcases treeIds_buildNode_cases lm ul comments comments.length rec hrecm.1 y.id hvt2
      with heq | ⟨z, hz, hzid, w, hw, hzp⟩
    · have : y = rec := List.inj_on_of_nodup_map hN hy hrecm.1 heq
      rw [← this, hp] at hrecm
      exact Option.noConfusion hrecm.2
    · have : z = y := List.inj_on_of_nodup_map hN hz hy hzid
      subst this
      rw [hp] at hzp
      have : pid = w.id := Option.some.injEq _ _ ▸ hzp
      exact hd (this ▸ List.mem_map_of_mem CommentRecord.id hw)
  · intro z hz hzp
    have hzr : z ∈ rootRecords comments := by
      rw [rootRecords, List.mem_filter]
      exact ⟨hz, by simp [hzp]⟩
    have hb : buildNode lm ul comments comments.length z ∈
        (rootRecords comments).map (buildNode lm ul comments comments.length) :=
      List.mem_map_of_mem _ hzr
    rw [← List.mem_insertionSort likesLe] at hb
    refine List.mem_map.mpr ⟨(buildNode lm ul comments comments.length z).withChildren
      (sortChildrenF comments.length
        (buildNode lm ul comments comments.length z).children), ?_, ?_⟩
    · exact List.mem_map_of_mem _ hb
    · rw [CommentRead.id_withChildren, buildNode_id]

/-- Witness for the amended C1 on the dangling-parent input `c1recs`. -/
theorem c1_dangling_dropped_witness :
    (c1recs.map CommentRecord.id).Nodup ∧
    ((2 : Nat) ∉ forestIds (get_comments [] [] c1recs) ∧
      ∀ z ∈ c1recs, z.parent_id = none →
        z.id ∈ (get_comments [] [] c1recs).map CommentRead.id) := by
  refine ⟨by decide, ?_⟩
  have h := c1_dangling_dropped [] [] c1recs (by decide)
    ⟨2, 11, 1, some 99, "b", 2, none, some ⟨"v"⟩⟩ (by decide) 99 (by decide) (by decide)
  exact h

/-! ### Parent-chain lemmas -/

theorem upchain_succ (comments : List CommentRecord) (k : Nat) (y : CommentRecord) :
    upchain comments (k + 1) y = (upchain comments k y).bind (anc comments) := rfl

theorem upchain_add (comments : List CommentRecord) (a b : Nat) (y : CommentRecord) :
    upchain comments (a + b) y = (upchain comments a y).bind (upchain comments b) := by
  induction b with
  | zero =>
    rw [Nat.add_zero]
    cases upchain comments a y with
    | none => rfl
    | some z => rfl
  | succ m ih =>
    rw [← Nat.add_assoc, upchain_succ, ih]
    cases upchain comments a y with
    | none => rfl
    | some z => rfl

theorem upchain_succ_bottom (comments : List CommentRecord) (k : Nat) (y : CommentRecord) :
    upchain comments (k + 1) y = (anc comments y).bind (upchain comments k) := by
  rw [show k + 1 = 1 + k from Nat.add_comm k 1, upchain_add]
  rfl

theorem anc_mem (comments : List CommentRecord) (c p : CommentRecord)
    (h : anc comments c = some p) : p ∈ comments := by
  rw [anc] at h
  cases hc : c.parent_id with
  | none => rw [hc] at h; cases h
  | some pid =>
    rw [hc] at h
    exact List.mem_of_find?_eq_some h

theorem anc_eq_parent (comments : List CommentRecord) (c r : CommentRecord)
    (h : anc comments c = some r) : c.parent_id = some r.id := by
  rw [anc] at h
  cases hc : c.parent_id with
  | none => rw [hc] at h; cases h
  | some pid =>
    rw [hc] at h
    have := List.find?_some h
    simp only [decide_eq_true_eq] at this
    rw [this]

theorem find?_id_eq (comments : List CommentRecord)
    (hN : (comments.map CommentRecord.id).Nodup) (p : CommentRecord) (hp : p ∈ comments) :
    comments.find? (fun c => c.id = p.id) = some p := by
  induction comments with
  | nil => cases hp
  | cons a t ih =>
    by_cases hid : a.id = p.id
    · have hap : a = p := by
        rcases List.mem_cons.mp hp with rfl | hpt
        · rfl
        · exfalso
          have : p.id ∈ t.map CommentRecord.id := List.mem_map_of_mem CommentRecord.id hpt
          exact (List.nodup_cons.mp hN).1 (hid ▸ this)
      rw [List.find?_cons_of_pos _ (by simpa using hid), hap]
    · have hpt : p ∈ t := by
        rcases List.mem_cons.mp hp with rfl | hpt
        · exact absurd rfl hid
        · exact hpt
      rw [List.find?_cons_of_neg _ (by simpa using hid)]
      exact ih (List.nodup_cons.mp hN).2 hpt

theorem anc_of_parent (comments : List CommentRecord)
    (hN : (comments.map CommentRecord.id).Nodup) (c r : CommentRecord)
    (hr : r ∈ comments) (hc : c.parent_id = some r.id) : anc comments c = some r := by
  rw [anc, hc]
  exact find?_id_eq comments hN r hr

theorem upchain_mem (comments : List CommentRecord) :
    ∀ (k : Nat) (y z : CommentRecord), y ∈ comments →
    upchain comments k y = some z → z ∈ comments := by
  intro k
  induction k with
  | zero =>
    intro y z hy h
    cases h
    exact hy
  | succ m ih =>
    intro y z hy h
    rw [upchain_succ] at h
    cases hu : upchain comments m y with
    | none => rw [hu] at h; cases h
    | some w =>
      rw [hu] at h
      exact anc_mem comments w z h

theorem upchain_past_root (comments : List CommentRecord) (r : CommentRecord) (k : Nat)
    (hr : r.parent_id = none) (hk : 0 < k) : upchain comments k r = none := by
  cases k with
  | zero => omega
  | succ m =>
    rw [upchain_succ_bottom]
    have : anc comments r = none := by rw [anc, hr]; rfl
    rw [this]
    rfl

theorem upchain_loop (comments : List CommentRecord) (y r : CommentRecord) (j m : Nat)
    (hloop : upchain comments (j + 1) y = some y)
    (hroot : upchain comments m y = some r) (hr : r.parent_id = none) : False := by
  have h1 : upchain comments ((j + 1) + m) y = some r := by
    rw [upchain_add, hloop]
    exact hroot
  have h2 : upchain comments (m + (j + 1)) y = none := by
    rw [upchain_add, hroot]
    exact upchain_past_root comments r (j + 1) hr (by omega)
  rw [Nat.add_comm m (j + 1), h1] at h2
  cases h2

theorem upchain_chain_nodup (comments : List CommentRecord) :
    ∀ (d : Nat) (y r : CommentRecord), y ∈ comments →
    upchain comments d y = some r → r.parent_id = none →
    ∃ l : List CommentRecord, l.Nodup ∧ l ⊆ comments ∧ l.length = d + 1 ∧
      ∀ x ∈ l, ∃ j, j ≤ d ∧ upchain comments j y = some x := by
  intro d
  induction d with
  | zero =>
    intro y r hy hc hr
    refine ⟨[y], List.nodup_singleton y, by simpa using hy, rfl, ?_⟩
    intro x hx
    rw [List.mem_singleton] at hx
    exact ⟨0, Nat.le_refl 0, by rw [hx]; rfl⟩
  | succ m ih =>
    intro y r hy hc hr
    rw [upchain_succ_bottom] at hc
    cases hay : anc comments y with
    | none => rw [hay] at hc; cases hc
    | some p =>
      rw [hay] at hc
      have hp : p ∈ comments := anc_mem comments y p hay
      obtain ⟨l, hnd, hsub, hlen, hchain⟩ := ih p r hp hc hr
      have hyl : y ∉ l := by
        intro hyin
        obtain ⟨j, hj, hcj⟩ := hchain y hyin
        have hloop : upchain comments (j + 1) y = some y := by
          rw [upchain_succ_bottom, hay]
          exact hcj
        have hrooty : upchain comments (m + 1) y = some r := by
          rw [upchain_succ_bottom, hay]
          exact hc
        exact upchain_loop comments y r j (m + 1) hloop hrooty hr
      refine ⟨y :: l, List.nodup_cons.mpr ⟨hyl, hnd⟩, ?_, by simp [hlen], ?_⟩
      · intro x hx
        rcases List.mem_cons.mp hx with rfl | h
        · exact hy
        · exact hsub h
      · intro x hx
        rcases List.mem_cons.mp hx with rfl | h
        · exact ⟨0, Nat.zero_le _, rfl⟩
        · obtain ⟨j, hj, hcj⟩ := hchain x h
          refine ⟨j + 1, by omega, ?_⟩
          rw [upchain_succ_bottom, hay]
          exact hcj

theorem upchain_root_lt (comments : List CommentRecord) (d : Nat) (y r : CommentRecord)
    (hy : y ∈ comments) (hc : upchain comments d y = some r) (hr : r.parent_id = none) :
    d < comments.length := by
  obtain ⟨l, hnd, hsub, hlen, _⟩ := upchain_chain_nodup comments d y r hy hc hr
  have := (List.subperm_of_subset hnd hsub).length_le
  omega

theorem upchain_root_unique (comments : List CommentRecord) (y r₁ r₂ : CommentRecord)
    (d₁ d₂ : Nat) (h₁ : upchain comments d₁ y = some r₁) (hr₁ : r₁.parent_id = none)
    (h₂ : upchain comments d₂ y = some r₂) (hr₂ : r₂.parent_id = none) :
    d₁ = d₂ ∧ r₁ = r₂ := by
  have key : ∀ (a b : Nat) (s₁ s₂ : CommentRecord), a < b →
      upchain comments a y = some s₁ → s₁.parent_id = none →
      upchain comments b y = some s₂ → False := by
    intro a b s₁ s₂ hab ha hs hb
    have : upchain comments (a + (b - a)) y = some s₂ := by
      rw [show a + (b - a) = b by omega]
      exact hb
    rw [upchain_add, ha] at this
    have hpast : upchain comments (b - a) s₁ = none :=
      upchain_past_root comments s₁ (b - a) hs (by omega)
    rw [show (some s₁).bind (upchain comments (b - a)) =
      upchain comments (b - a) s₁ from rfl, hpast] at this
    cases this
  rcases Nat.lt_trichotomy d₁ d₂ with hlt | heq | hgt
  · exact absurd (key d₁ d₂ r₁ r₂ hlt h₁ hr₁ h₂) (fun f => f)
  · subst heq
    rw [h₁] at h₂
    exact ⟨rfl, Option.some.inj h₂⟩
  · exact absurd (key d₂ d₁ r₂ r₁ hgt h₂ hr₂ h₁) (fun f => f)

/-! ### Counting helpers -/

theorem sum_map_add {α : Type} (l : List α) (f g : α → Nat) :
    (l.map (fun x => f x + g x)).sum = (l.map f).sum + (l.map g).sum := by
  induction l with
  | nil => rfl
  | cons a t ih =>
    simp only [List.map_cons, List.sum_cons, ih]
    omega

theorem sum_ite_eq_one {α : Type} [DecidableEq α] (l : List α) (z : α)
    (hnd : l.Nodup) (hz : z ∈ l) :
    (l.map (fun c => if z = c then 1 else 0)).sum = 1 := by
  induction l with
  | nil => cases hz
  | cons a t ih =>
    rw [List.map_cons, List.sum_cons]
    rcases List.mem_cons.mp hz with rfl | hzt
    · rw [if_pos rfl]
      have hz0 : ∀ c ∈ t, (if z = c then 1 else 0) = 0 := by
        intro c hc
        rw [if_neg]
        rintro rfl
        exact (List.nodup_cons.mp hnd).1 hc
      rw [List.map_congr_left hz0]
      simp
    · rw [if_neg (by rintro rfl; exact (List.nodup_cons.mp hnd).1 hzt),
        ih (List.nodup_cons.mp hnd).2 hzt]

theorem count_forestIds_map (v : Nat) (f : CommentRecord → CommentRead) :
    ∀ L : List CommentRecord,
    (forestIds (L.map f)).count v = (L.map (fun c => (treeIds (f c)).count v)).sum := by
  intro L
  induction L with
  | nil => rfl
  | cons a t ih =>
    rw [List.map_cons, forestIds_cons, List.count_append, ih, List.map_cons, List.sum_cons]

/-- One chain step: among the children rows of `r`, exactly one carries the
`d`-step ancestor of `y` when the `(d+1)`-step ancestor is `r`, and none
otherwise. -/
theorem sum_ite_chain_step (comments : List CommentRecord)
    (hN : (comments.map CommentRecord.id).Nodup) (r y : CommentRecord)
    (hr : r ∈ comments) (hy : y ∈ comments) (d : Nat) :
    ((childRecords comments r.id).map (fun c =>
      if upchain comments d y = some c then 1 else 0)).sum =
    if upchain comments (d + 1) y = some r then 1 else 0 := by
  have hchn : (childRecords comments r.id).Nodup :=
    (hN.of_map _).sublist (List.filter_sublist comments)
  by_cases h : upchain comments (d + 1) y = some r
  · rw [if_pos h]
    rw [upchain_succ] at h
    cases hu : upchain comments d y with
    | none => rw [hu] at h; cases h
    | some z =>
      rw [hu] at h
      have hz : z ∈ comments := upchain_mem comments d y z hy hu
      have hzp : z.parent_id = some r.id := anc_eq_parent comments z r h
      have hzch : z ∈ childRecords comments r.id := by
        rw [childRecords, List.mem_filter]
        exact ⟨hz, by simp [hzp]⟩
      have hpt : ∀ c ∈ childRecords comments r.id,
          (if some z = some c then 1 else 0) = (if z = c then 1 else 0) := by
        intro c _
        by_cases hzc : z = c
        · rw [if_pos hzc, if_pos (by rw [hzc])]
        · rw [if_neg hzc, if_neg (fun hcon => hzc (Option.some.inj hcon))]
      rw [List.map_congr_left hpt]
      exact sum_ite_eq_one _ z hchn hzch
  · rw [if_neg h]
    have hpt : ∀ c ∈ childRecords comments r.id,
        (if upchain comments d y = some c then 1 else 0) = 0 := by
      intro c hc
      rw [if_neg]
      intro hcon
      apply h
      rw [upchain_succ, hcon]
      have hcm := List.mem_filter.mp hc
      have hcp : c.parent_id = some r.id := by simpa using hcm.2
      exact anc_of_parent comments hN c r hr hcp
    rw [List.map_congr_left hpt]
    simp

theorem countP_chain_shift (comments : List CommentRecord)
    (hN : (comments.map CommentRecord.id).Nodup) (r y : CommentRecord)
    (hr : r ∈ comments) (hy : y ∈ comments) :
    ∀ ds : List Nat,
    ((childRecords comments r.id).map (fun c =>
      ds.countP (fun d => upchain comments d y = some c))).sum =
    ds.countP (fun d => upchain comments (d + 1) y = some r) := by
  intro ds
  induction ds with
  | nil => simp
  | cons d ds ih =>
    have hexp : ∀ c ∈ childRecords comments r.id,
        (d :: ds).countP (fun e => upchain comments e y = some c) =
        ds.countP (fun e => upchain comments e y = some c) +
          (if upchain comments d y = some c then 1 else 0) := by
      intro c _
      rw [List.countP_cons]
      congr 1
      simp
    rw [List.map_congr_left hexp, sum_map_add, ih, List.countP_cons]
    congr 1
    rw [sum_ite_chain_step comments hN r y hr hy d]
    simp

/-- The master count identity: the id of row `y` occurs in the subtree built
for row `r` exactly as often as there are chain lengths `d ≤ fuel` whose
`d`-step ancestor of `y` is `r` (0 or 1 times). -/
theorem count_treeIds_buildNode (lm : List (Nat × Nat)) (ul : List Nat)
    (comments : List CommentRecord) (hN : (comments.map CommentRecord.id).Nodup) :
    ∀ (fuel : Nat) (r y : CommentRecord), r ∈ comments → y ∈ comments →
    (treeIds (buildNode lm ul comments fuel r)).count y.id =
      (List.range (fuel + 1)).countP (fun d => upchain comments d y = some r) := by
  intro fuel
  induction fuel with
  | zero =>
    intro r y hr hy
    rw [treeIds_buildNode_zero, show List.range 1 = [0] from rfl]
    by_cases hyr : y = r
    · subst hyr
      have h0 : upchain comments 0 y = some y := rfl
      simp [List.count_cons, List.countP_cons, h0]
    · have hid : y.id ≠ r.id := fun h => hyr (List.inj_on_of_nodup_map hN hy hr h)
      have hch : ¬ (upchain comments 0 y = some r) := fun h => hyr (Option.some.inj h)
      simp [List.count_cons, List.countP_cons, hid, hch, Ne.symm hid]
  | succ m ih =>
    intro r y hr hy
    rw [treeIds_buildNode_succ, List.count_cons, count_forestIds_map]
    have hpt : ∀ c ∈ childRecords comments r.id,
        (treeIds (buildNode lm ul comments m c)).count y.id =
        (List.range (m + 1)).countP (fun d => upchain comments d y = some c) := by
      intro c hc
      exact ih c y (List.mem_filter.mp hc).1 hy
    rw [List.map_congr_left hpt, countP_chain_shift comments hN r y hr hy]
    conv_rhs => rw [List.range_succ_eq_map, List.countP_cons, List.countP_map]
    congr 1
    by_cases hyr : y = r
    · subst hyr
      have h0 : upchain comments 0 y = some y := rfl
      simp [h0]
    · have hid : ¬ (y.id = r.id) := fun h => hyr (List.inj_on_of_nodup_map hN hy hr h)
      have hch : ¬ (upchain comments 0 y = some r) := fun h => hyr (Option.some.inj h)
      simp [hid, hch, Ne.symm hid]

theorem sum_ite_eq_countP {α : Type} (l : List α) (p : α → Bool) :
    (l.map (fun x => if p x then 1 else 0)).sum = l.countP p := by
  induction l with
  | nil => rfl
  | cons a t ih =>
    rw [List.map_cons, List.sum_cons, List.countP_cons, ih]
    omega

theorem countP_unique {α : Type} (l : List α) (p : α → Bool)
    (hu : ∀ a ∈ l, ∀ b ∈ l, p a → p b → a = b) (hn : l.Nodup) :
    l.countP p = if l.any p then 1 else 0 := by
  induction l with
  | nil => rfl
  | cons a t ih =>
    have hrec := ih
      (fun x hx y hy => hu x (List.mem_cons_of_mem a hx) y (List.mem_cons_of_mem a hy))
      (List.nodup_cons.mp hn).2
    rw [List.countP_cons, List.any_cons, hrec]
    by_cases hpa : p a = true
    · have ht0 : t.any p = false := by
        rw [Bool.eq_false_iff]
        intro hany
        obtain ⟨b, hb, hpb⟩ := List.any_eq_true.mp hany
        have : a = b := hu a (List.mem_cons_self a t) b (List.mem_cons_of_mem a hb) hpa hpb
        exact (List.nodup_cons.mp hn).1 (this ▸ hb)
      rw [hpa, ht0]
      simp
    · have hfa : p a = false := Bool.eq_false_iff.mpr hpa
      rw [hfa]
      simp

theorem rootRecords_spec (comments : List CommentRecord) (r : CommentRecord)
    (h : r ∈ rootRecords comments) : r ∈ comments ∧ r.parent_id = none := by
  have := List.mem_filter.mp h
  simpa using this

/-- The id of row `y` occurs in the built forest exactly once when some chain
from `y` ends at a root, and never otherwise. -/
theorem count_roots_ids (lm : List (Nat × Nat)) (ul : List Nat)
    (comments : List CommentRecord) (hN : (comments.map CommentRecord.id).Nodup)
    (y : CommentRecord) (hy : y ∈ comments) :
    (forestIds ((rootRecords comments).map
      (buildNode lm ul comments comments.length))).count y.id =
    if (rootRecords comments).any (fun r =>
      (List.range (comments.length + 1)).any
        (fun d => upchain comments d y = some r)) then 1 else 0 := by
  rw [count_forestIds_map]
  have hpt : ∀ r ∈ rootRecords comments,
      (treeIds (buildNode lm ul comments comments.length r)).count y.id =
      if (List.range (comments.length + 1)).any
          (fun d => upchain comments d y = some r) then 1 else 0 := by
    intro r hrm
    obtain ⟨hrc, hrp⟩ := rootRecords_spec comments r hrm
    rw [count_treeIds_buildNode lm ul comments hN _ r y hrc hy]
    apply countP_unique
    · intro d1 _ d2 _ h1 h2
      simp only [decide_eq_true_eq] at h1 h2
      exact (upchain_root_unique comments y r r d1 d2 h1 hrp h2 hrp).1
    · exact List.nodup_range _
  rw [List.map_congr_left hpt, sum_ite_eq_countP]
  apply countP_unique
  · intro r1 h1 r2 h2 hq1 hq2
    obtain ⟨d1, _, hc1⟩ := List.any_eq_true.mp hq1
    obtain ⟨d2, _, hc2⟩ := List.any_eq_true.mp hq2
    simp only [decide_eq_true_eq] at hc1 hc2
    exact (upchain_root_unique comments y r1 r2 d1 d2 hc1
      (rootRecords_spec comments r1 h1).2 hc2 (rootRecords_spec comments r2 h2).2).2
  · exact (hN.of_map _).sublist (List.filter_sublist comments)

theorem count_roots_ids_zero (lm : List (Nat × Nat)) (ul : List Nat)
    (comments : List CommentRecord) (v : Nat) (hv : v ∉ comments.map CommentRecord.id) :
    (forestIds ((rootRecords comments).map
      (buildNode lm ul comments comments.length))).count v = 0 := by
  apply List.count_eq_zero_of_not_mem
  intro hmem
  obtain ⟨t, ht, hvt⟩ := mem_forestIds.mp hmem
  obtain ⟨r, hrm, rfl⟩ := List.mem_map.mp ht
  have hrc : r ∈ comments := (rootRecords_spec comments r hrm).1
  rcases treeIds_buildNode_cases lm ul comments _ r hrc v hvt with rfl | ⟨z, hz, hzid, -⟩
  · exact hv (List.mem_map_of_mem CommentRecord.id hrc)
  · exact hv (hzid ▸ List.mem_map_of_mem CommentRecord.id hz)

/-- Under unique ids and a forest-shaped parent relation, the built forest
carries exactly the input ids, as a permutation. -/
theorem forest_ids_perm_records (lm : List (Nat × Nat)) (ul : List Nat)
    (comments : List CommentRecord) (hN : (comments.map CommentRecord.id).Nodup)
    (hR : ReachesRoot comments) :
    forestIds ((rootRecords comments).map (buildNode lm ul comments comments.length)) ~
      comments.map CommentRecord.id := by
  rw [List.perm_iff_count]
  intro v
  by_cases hv : v ∈ comments.map CommentRecord.id
  · obtain ⟨y, hy, rfl⟩ := List.mem_map.mp hv
    rw [count_roots_ids lm ul comments hN y hy, List.count_eq_one_of_mem hN hv]
    rw [if_pos]
    obtain ⟨d, hd, hroot⟩ := hR y hy
    cases hu : upchain comments d y with
    | none => rw [hu] at hroot; cases hroot
    | some r =>
      rw [hu] at hroot
      have hrp : r.parent_id = none := by
        simpa using hroot
      have hrc : r ∈ comments := upchain_mem comments d y r hy hu
      have hrm : r ∈ rootRecords comments := by
        rw [rootRecords, List.mem_filter]
        exact ⟨hrc, by simp [hrp]⟩
      refine List.any_eq_true.mpr ⟨r, hrm, List.any_eq_true.mpr ⟨d, hd, ?_⟩⟩
      simp [hu]
  · rw [count_roots_ids_zero lm ul comments v hv, List.count_eq_zero_of_not_mem hv]

/-! ### Permutation transport through the sorting passes -/

theorem forestIds_perm_congr {l₁ l₂ : List CommentRead} (h : l₁ ~ l₂) :
    forestIds l₁ ~ forestIds l₂ := by
  induction h with
  | nil => exact List.Perm.refl _
  | cons x h ih =>
    simp only [forestIds_cons]
    exact ih.append_left (treeIds x)
  | swap x y l =>
    simp only [forestIds_cons]
    rw [← List.append_assoc, ← List.append_assoc]
    exact List.perm_append_comm.append_right _
  | trans h1 h2 ih1 ih2 => exact ih1.trans ih2

theorem forestIds_map_pointwise (g : CommentRead → CommentRead) (L : List CommentRead)
    (h : ∀ t ∈ L, treeIds (g t) ~ treeIds t) : forestIds (L.map g) ~ forestIds L := by
  induction L with
  | nil => exact List.Perm.refl _
  | cons a t ih =>
    rw [List.map_cons, forestIds_cons, forestIds_cons]
    exact (h a (List.mem_cons_self a t)).append
      (ih (fun x hx => h x (List.mem_cons_of_mem a hx)))

theorem BuiltOK.children_nodup {fuel : Nat} {t : CommentRead} (h : BuiltOK (fuel + 1) t) :
    (t.children.map CommentRead.id).Nodup := by
  cases h with
  | intro hn _ => exact hn

theorem BuiltOK.children_ok {fuel : Nat} {t : CommentRead} (h : BuiltOK (fuel + 1) t) :
    ∀ c ∈ t.children, BuiltOK fuel c := by
  cases h with
  | intro _ hk => exact hk

theorem buildNode_BuiltOK (lm : List (Nat × Nat)) (ul : List Nat)
    (comments : List CommentRecord) (hN : (comments.map CommentRecord.id).Nodup) :
    ∀ (fuel : Nat) (r : CommentRecord),
    BuiltOK (fuel + 1) (buildNode lm ul comments fuel r) := by
  intro fuel
  induction fuel with
  | zero =>
    intro r
    refine BuiltOK.intro ?_ ?_
    · simp [buildNode]
    · intro c hc
      simp [buildNode] at hc
  | succ m ih =>
    intro r
    refine BuiltOK.intro ?_ ?_
    · rw [buildNode_children_succ, List.map_map]
      have heq : ∀ c ∈ childRecords comments r.id,
          (CommentRead.id ∘ buildNode lm ul comments m) c = CommentRecord.id c := by
        intro c _
        simp [Function.comp, buildNode_id]
      rw [List.map_congr_left heq]
      exact hN.sublist ((List.filter_sublist comments).map CommentRecord.id)
    · intro c hc
      rw [buildNode_children_succ] at hc
      obtain ⟨d, _, rfl⟩ := List.mem_map.mp hc
      exact ih d

theorem forestIds_sortChildrenF_perm :
    ∀ (fuel : Nat) (L : List CommentRead), (L.map CommentRead.id).Nodup →
    (∀ t ∈ L, BuiltOK fuel t) → forestIds (sortChildrenF fuel L) ~ forestIds L := by
  intro fuel
  induction fuel with
  | zero =>
    intro L _ _
    exact List.Perm.refl _
  | succ m ih =>
    intro L hnd hok
    rw [sortChildrenF]
    have hpt : ∀ t ∈ rankList L,
        treeIds (t.withChildren (sortChildrenF m t.children)) ~ treeIds t := by
      intro t ht
      have hb := hok t (mem_rankList ht)
      rw [treeIds_withChildren, treeIds_eq]
      exact (ih t.children hb.children_nodup hb.children_ok).cons t.id
    exact (forestIds_map_pointwise _ _ hpt).trans
      (forestIds_perm_congr (rankList_perm L hnd))

theorem forestIds_get_comments_perm (lm : List (Nat × Nat)) (ul : List Nat)
    (comments : List CommentRecord) (hN : (comments.map CommentRecord.id).Nodup) :
    forestIds (get_comments lm ul comments) ~
      forestIds ((rootRecords comments).map
        (buildNode lm ul comments comments.length)) := by
  rcases eq_or_ne comments [] with rfl | hne
  · exact List.Perm.refl _
  · rw [get_comments, get_commentsF_eq _ _ _ _ hne]
    have hpt : ∀ t ∈ ((rootRecords comments).map
        (buildNode lm ul comments comments.length)).insertionSort likesLe,
        treeIds (t.withChildren (sortChildrenF comments.length t.children)) ~ treeIds t := by
      intro t ht
      rw [List.mem_insertionSort] at ht
      obtain ⟨rec, hrec, rfl⟩ := List.mem_map.mp ht
      have hb := buildNode_BuiltOK lm ul comments hN comments.length rec
      rw [treeIds_withChildren, treeIds_eq]
      exact (forestIds_sortChildrenF_perm comments.length _
        hb.children_nodup hb.children_ok).cons _
    exact (forestIds_map_pointwise _ _ hpt).trans
      (forestIds_perm_congr (List.perm_insertionSort likesLe _))

/-- C2: for a non-empty row set with distinct ids and a forest-shaped parent
relation, the forest returned by `get_comments` contains exactly one node per
input row — the recursive node count equals the row count. -/
theorem c2_node_count (lm : List (Nat × Nat)) (ul : List Nat)
    (comments : List CommentRecord) (_hne : comments ≠ [])
    (hN : (comments.map CommentRecord.id).Nodup) (hR : ReachesRoot comments) :
    (forestIds (get_comments lm ul comments)).length = comments.length := by
  have h1 := forestIds_get_comments_perm lm ul comments hN
  have h2 := forest_ids_perm_records lm ul comments hN hR
  rw [(h1.trans h2).length_eq, List.length_map]

/-- Witness for C2 on a two-tree forest with a three-row chain. -/
theorem c2_node_count_witness :
    c2recs ≠ [] ∧ (c2recs.map CommentRecord.id).Nodup ∧ ReachesRoot c2recs ∧
    (forestIds (get_comments [] [] c2recs)).length = c2recs.length :=
  ⟨by decide, by decide, by decide,
   c2_node_count [] [] c2recs (by decide) (by decide) (by decide)⟩

/-- C9: with distinct input ids, every id occurs at most once in the output
forest — no node is shared between two positions or sibling lists. -/
theorem c9_ids_nodup (lm : List (Nat × Nat)) (ul : List Nat)
    (comments : List CommentRecord) (hN : (comments.map CommentRecord.id).Nodup) :
    (forestIds (get_comments lm ul comments)).Nodup := by
  rw [List.nodup_iff_count_le_one]
  intro v
  rw [(forestIds_get_comments_perm lm ul comments hN).count_eq]
  by_cases hv : v ∈ comments.map CommentRecord.id
  · obtain ⟨y, hy, rfl⟩ := List.mem_map.mp hv
    rw [count_roots_ids lm ul comments hN y hy]
    split
    · omega
    · omega
  · rw [count_roots_ids_zero lm ul comments v hv]
    omega

/-- Witness for C9 on an input that also contains a dangling parent. -/
theorem c9_ids_nodup_witness :
    (c1recs.map CommentRecord.id).Nodup ∧ (forestIds (get_comments [] [] c1recs)).Nodup :=
  ⟨by decide, c9_ids_nodup [] [] c1recs (by decide)⟩

/-! ### Fuel sufficiency: the recursion depth is bounded by the row count -/

theorem sortChildren_nil : ∀ fuel : Nat, sortChildrenF fuel [] = [] := by
  intro fuel
  cases fuel with
  | zero => rfl
  | succ m => simp [sortChildrenF, rankList]

theorem buildNode_stable (lm : List (Nat × Nat)) (ul : List Nat)
    (comments : List CommentRecord) (hN : (comments.map CommentRecord.id).Nodup) :
    ∀ (fuel : Nat) (r : CommentRecord), r ∈ comments →
    (∀ y ∈ comments, ∀ k, upchain comments k y = some r → k < fuel) →
    ∀ g, fuel ≤ g → buildNode lm ul comments g r = buildNode lm ul comments fuel r := by
  intro fuel
  induction fuel with
  | zero =>
    intro r hr hH g hg
    exact absurd (hH r hr 0 rfl) (Nat.lt_irrefl 0)
  | succ m ih =>
    intro r hr hH g hg
    obtain ⟨g2, rfl⟩ : ∃ g2, g = g2 + 1 := ⟨g - 1, by omega⟩
    show (mkCommentRead lm ul r).withChildren
        ((childRecords comments r.id).map (buildNode lm ul comments g2)) =
      (mkCommentRead lm ul r).withChildren
        ((childRecords comments r.id).map (buildNode lm ul comments m))
    congr 1
    apply List.map_congr_left
    intro c hc
    have hcm : c ∈ comments ∧ c.parent_id = some r.id := by
      simpa using List.mem_filter.mp hc
    have hHc : ∀ y ∈ comments, ∀ k, upchain comments k y = some c → k < m := by
      intro y hy k hk
      have hstep : upchain comments (k + 1) y = some r := by
        rw [upchain_succ, hk]
        exact anc_of_parent comments hN c r hr hcm.2
      have := hH y hy (k + 1) hstep
      omega
    exact ih c hcm.1 hHc g2 (by omega)

theorem sortChildrenF_stable :
    ∀ (fuel : Nat) (L : List CommentRead), (∀ t ∈ L, DepthLE fuel t) →
    ∀ g, fuel ≤ g → sortChildrenF g L = sortChildrenF fuel L := by
  intro fuel
  induction fuel with
  | zero =>
    intro L hL g hg
    cases L with
    | nil => rw [sortChildren_nil, sortChildren_nil]
    | cons a t =>
      have := hL a (List.mem_cons_self a t)
      cases this
  | succ m ih =>
    intro L hL g hg
    obtain ⟨g2, rfl⟩ : ∃ g2, g = g2 + 1 := ⟨g - 1, by omega⟩
    show (rankList L).map (fun c => c.withChildren (sortChildrenF g2 c.children)) =
      (rankList L).map (fun c => c.withChildren (sortChildrenF m c.children))
    apply List.map_congr_left
    intro t ht
    have hd := hL t (mem_rankList ht)
    cases hd with
    | intro hkids =>
      rw [ih t.children hkids g2 (by omega)]

/-- C8: the computation never needs more recursion than one level per input
row, even when the parent relation is cyclic: with distinct ids, any fuel of
at least the row count yields the same (defined) result, and cyclic rows are
simply absent from the output (see the witness on the cycle 1 → 2 → 1). -/
theorem c8_fuel_stable (lm : List (Nat × Nat)) (ul : List Nat)
    (comments : List CommentRecord) (fuel : Nat)
    (hN : (comments.map CommentRecord.id).Nodup) (hfuel : comments.length ≤ fuel) :
    get_commentsF fuel lm ul comments = get_comments lm ul comments := by
  rcases eq_or_ne comments [] with rfl | hne
  · rw [get_comments, get_commentsF_nil, get_commentsF_nil]
  · rw [get_comments, get_commentsF_eq _ _ _ _ hne, get_commentsF_eq _ _ _ _ hne]
    have hbn : ∀ r ∈ rootRecords comments,
        buildNode lm ul comments fuel r = buildNode lm ul comments comments.length r := by
      intro r hrm
      obtain ⟨hrc, hrp⟩ := rootRecords_spec comments r hrm
      apply buildNode_stable lm ul comments hN comments.length r hrc _ fuel hfuel
      intro y hy k hk
      exact upchain_root_lt comments k y r hy hk hrp
    rw [List.map_congr_left hbn]
    apply List.map_congr_left
    intro t ht
    rw [List.mem_insertionSort] at ht
    obtain ⟨rec, hrec, rfl⟩ := List.mem_map.mp ht
    have hd := buildNode_DepthLE lm ul comments comments.length rec
    cases hd with
    | intro hkids =>
      rw [sortChildrenF_stable comments.length _ hkids fuel hfuel]

/-- Witness for C8 on a cyclic parent chain 1 → 2 → 1 beside a root: extra
fuel changes nothing, and the cycle rows are dropped while the root remains. -/
theorem c8_fuel_stable_witness :
    (cycrecs.map CommentRecord.id).Nodup ∧ cycrecs.length ≤ 9 ∧
    forestIds (get_comments [] [] cycrecs) = [3] ∧
    get_commentsF 9 [] [] cycrecs = get_comments [] [] cycrecs :=
  ⟨by decide, by decide, by decide, c8_fuel_stable [] [] cycrecs 9 (by decide) (by decide)⟩
